import Mathlib

/-!
Verification development for the gobuildcache request broker.

The Go sources are shallowly embedded over executable Lean definitions:
strings are `List Char`, byte sequences are `List Nat` (each element < 256),
the filesystem is a function from paths to optional file contents, and the
pluggable storage backend is a record of pure state-transition functions.
External standard-library routines used by the code (base64, hex, JSON
string framing, Sscanf-style field scanning) are modelled after their
documented behaviour on the inputs the program produces.
-/

/-! ## Go string helpers -/

/-- Model of unicode.IsSpace restricted to the byte range the program
ever feeds it (ASCII plus NEL and NBSP). -/
def goIsSpace (c : Char) : Bool :=
  c = ' ' || c = '\t' || c = '\n' || c = Char.ofNat 11 || c = Char.ofNat 12 ||
  c = '\r' || c = Char.ofNat 133 || c = Char.ofNat 160

/-- Model of strings.TrimSpace: drop leading and trailing whitespace. -/
def trimSpace (l : List Char) : List Char :=
  ((l.dropWhile goIsSpace).reverse.dropWhile goIsSpace).reverse

/-- Model of strings.HasPrefix on char lists. -/
def startsWith : List Char → List Char → Bool
  | [], _ => true
  | _ :: _, [] => false
  | p :: ps, c :: cs => p = c && startsWith ps cs

/-- Model of strings.Split(s, "\n"). -/
def splitOnNl : List Char → List (List Char)
  | [] => [[]]
  | c :: rest =>
    if c = '\n' then [] :: splitOnNl rest
    else
      match splitOnNl rest with
      | [] => [[c]]
      | l :: ls => (c :: l) :: ls

/-! ## Hexadecimal (encoding/hex) -/

/-- The digit table of encoding/hex ("0123456789abcdef"). -/
def hextable : List Char := ("0123456789abcdef").toList

/-- Index into the hex digit table. -/
def hexDigit (d : Nat) : Char := hextable.getD d '0'

/-- Model of hex.EncodeToString: two lowercase hex digits per byte. -/
def hexEncode : List Nat → List Char
  | [] => []
  | b :: bs => hexDigit (b / 16) :: hexDigit (b % 16) :: hexEncode bs

/-- Model of encoding/hex fromHexChar: value of one hex digit. -/
def fromHexChar (c : Char) : Option Nat :=
  if '0' ≤ c ∧ c ≤ '9' then some (c.toNat - '0'.toNat)
  else if 'a' ≤ c ∧ c ≤ 'f' then some (c.toNat - 'a'.toNat + 10)
  else if 'A' ≤ c ∧ c ≤ 'F' then some (c.toNat - 'A'.toNat + 10)
  else none

/-- Model of hex.DecodeString: pairs of hex digits, error on odd length
or invalid digit. -/
def hexDecode : List Char → Option (List Nat)
  | [] => some []
  | [_] => none
  | c1 :: c2 :: rest => do
    let hi ← fromHexChar c1
    let lo ← fromHexChar c2
    let bs ← hexDecode rest
    pure ((hi * 16 + lo) :: bs)

/-! ## Decimal formatting and Sscanf-style scanning -/

/-- Little-endian decimal digits of a natural number; the fuel argument
makes the recursion structural and is always supplied at least `n`. -/
def natToCharsAux : Nat → Nat → List Char
  | 0, _ => []
  | fuel + 1, n =>
    if n = 0 then [] else hexDigit (n % 10) :: natToCharsAux fuel (n / 10)

/-- Model of strconv decimal formatting of a natural number. -/
def natToChars (n : Nat) : List Char :=
  if n = 0 then ['0'] else (natToCharsAux n n).reverse

/-- Model of %d formatting of a signed integer. -/
def intToChars (i : Int) : List Char :=
  if i < 0 then '-' :: natToChars i.natAbs else natToChars i.natAbs

/-- Value of one decimal digit character. -/
def digitVal (c : Char) : Option Nat :=
  if '0' ≤ c ∧ c ≤ '9' then some (c.toNat - '0'.toNat) else none

/-- Split a char list into its leading run of decimal digits (as values)
and the remainder. -/
def takeDigits : List Char → List Nat × List Char
  | [] => ([], [])
  | c :: rest =>
    match digitVal c with
    | some d =>
      let p := takeDigits rest
      (d :: p.1, p.2)
    | none => ([], c :: rest)

/-- Big-endian digit list to natural number. -/
def digitsToNat (ds : List Nat) : Nat := ds.foldl (fun acc d => acc * 10 + d) 0

/-- Model of fmt.Sscanf %d: skip leading space, optional sign, then at
least one decimal digit. Returns none when the verb fails to match
(in which case Sscanf leaves the destination unchanged). -/
def scanInt (l : List Char) : Option Int :=
  let t := l.dropWhile goIsSpace
  let neg := startsWith ['-'] t
  let t2 := if startsWith ['-'] t || startsWith ['+'] t then t.drop 1 else t
  let p := takeDigits t2
  if p.1 = [] then none
  else if neg then some (-(digitsToNat p.1 : Int)) else some ((digitsToNat p.1 : Int))

/-- Model of fmt.Sscanf %s: skip leading space, then a maximal non-empty
run of non-space characters. -/
def scanStr (l : List Char) : Option (List Char) :=
  let s := (l.dropWhile goIsSpace).takeWhile (fun c => !goIsSpace c)
  if s = [] then none else some s

/-! ## Base64 (encoding/base64 StdEncoding) -/

/-- The standard base64 alphabet. -/
def b64table : List Char :=
  ("ABCDEFGHIJKLMNOPQRSTUVWXYZabcdefghijklmnopqrstuvwxyz0123456789+/").toList

/-- Index into the base64 alphabet. -/
def b64char (n : Nat) : Char := b64table.getD n 'A'

/-- Model of base64.StdEncoding.EncodeToString: 3 bytes to 4 chars with
'=' padding. -/
def b64encode : List Nat → List Char
  | [] => []
  | [b0] => [b64char (b0 / 4), b64char (b0 % 4 * 16), '=', '=']
  | [b0, b1] =>
    [b64char (b0 / 4), b64char (b0 % 4 * 16 + b1 / 16), b64char (b1 % 16 * 4), '=']
  | b0 :: b1 :: b2 :: rest =>
    b64char (b0 / 4) :: b64char (b0 % 4 * 16 + b1 / 16) ::
      b64char (b1 % 16 * 4 + b2 / 64) :: b64char (b2 % 64) :: b64encode rest

/-- Reverse lookup in the base64 alphabet. -/
def b64charDec (c : Char) : Option Nat :=
  if 'A' ≤ c ∧ c ≤ 'Z' then some (c.toNat - 'A'.toNat)
  else if 'a' ≤ c ∧ c ≤ 'z' then some (c.toNat - 'a'.toNat + 26)
  else if '0' ≤ c ∧ c ≤ '9' then some (c.toNat - '0'.toNat + 52)
  else if c = '+' then some 62
  else if c = '/' then some 63
  else none

/-- Model of base64.StdEncoding.DecodeString: quantums of 4 chars,
padding only in the final quantum. -/
def b64decode : List Char → Option (List Nat)
  | [] => some []
  | c0 :: c1 :: c2 :: c3 :: rest => do
    let i0 ← b64charDec c0
    let i1 ← b64charDec c1
    if c2 = '=' then
      if c3 = '=' ∧ rest = [] then pure [i0 * 4 + i1 / 16] else none
    else do
      let i2 ← b64charDec c2
      if c3 = '=' then
        if rest = [] then pure [i0 * 4 + i1 / 16, i1 % 16 * 16 + i2 / 4] else none
      else do
        let i3 ← b64charDec c3
        let bs ← b64decode rest
        pure ((i0 * 4 + i1 / 16) :: (i1 % 16 * 16 + i2 / 4) :: (i2 % 4 * 64 + i3) :: bs)
  | _ => none

/-! ## JSON string literals (encoding/json) -/

/-- JSON insignificant whitespace. -/
def jsonWS (c : Char) : Bool := c = ' ' || c = '\t' || c = '\n' || c = '\r'

/-- Characters that encoding/json emits verbatim inside a quoted string
(no quote, no backslash, no control character, no HTML-escaped char). -/
def jsonSafeChar (c : Char) : Bool :=
  !(c = '"') && !(c = '\\') && !(c.toNat < 32) && !(c = '<') && !(c = '>') && !(c = '&')

/-- Model of the per-character escaping of encoding/json string marshaling
(with its default HTML escaping of angle brackets and ampersand). -/
def jsonEscapeChar (c : Char) : List Char :=
  if c = '"' then ['\\', '"']
  else if c = '\\' then ['\\', '\\']
  else if c = '\n' then ['\\', 'n']
  else if c = '\r' then ['\\', 'r']
  else if c = '\t' then ['\\', 't']
  else if c = '<' then ['\\', 'u', '0', '0', '3', 'c']
  else if c = '>' then ['\\', 'u', '0', '0', '3', 'e']
  else if c = '&' then ['\\', 'u', '0', '0', '2', '6']
  else if c.toNat < 32 then ['\\', 'u', '0', '0', hexDigit (c.toNat / 16), hexDigit (c.toNat % 16)]
  else [c]

/-- Model of json.Marshal applied to a string value. -/
def jsonQuote (s : List Char) : List Char :=
  '"' :: ((s.map jsonEscapeChar).flatten ++ ['"'])

/-- Unescape one simple JSON escape character. -/
def jsonSimpleEscape (e : Char) : Option Char :=
  if e = '"' then some '"'
  else if e = '\\' then some '\\'
  else if e = '/' then some '/'
  else if e = 'b' then some (Char.ofNat 8)
  else if e = 'f' then some (Char.ofNat 12)
  else if e = 'n' then some '\n'
  else if e = 'r' then some '\r'
  else if e = 't' then some '\t'
  else none

/-- Parse the body of a JSON string literal (after the opening quote),
returning the decoded characters and the input after the closing quote.
Surrogate pairs are not recombined (the program never produces them). -/
def jsonStringBody : List Char → Option (List Char × List Char)
  | [] => none
  | c :: rest =>
    if c = '"' then some ([], rest)
    else if c = '\\' then
      match rest with
      | 'u' :: h1 :: h2 :: h3 :: h4 :: rest2 => do
        let d1 ← fromHexChar h1
        let d2 ← fromHexChar h2
        let d3 ← fromHexChar h3
        let d4 ← fromHexChar h4
        let p ← jsonStringBody rest2
        pure (Char.ofNat (((d1 * 16 + d2) * 16 + d3) * 16 + d4) :: p.1, p.2)
      | e :: rest2 => do
        let ec ← jsonSimpleEscape e
        let p ← jsonStringBody rest2
        pure (ec :: p.1, p.2)
      | [] => none
    else if c.toNat < 32 then none
    else do
      let p ← jsonStringBody rest
      pure (c :: p.1, p.2)

/-- Model of json.Unmarshal into a string destination: optional leading
whitespace, a string literal, optional trailing whitespace. -/
def jsonParseString (l : List Char) : Option (List Char) :=
  match l.dropWhile jsonWS with
  | '"' :: rest => do
    let p ← jsonStringBody rest
    if p.2.dropWhile jsonWS = [] then pure p.1 else none
  | _ => none

/-! ## The framing codec (server.go readLine / ReadRequest) -/

/-- The wire commands. -/
def cmdPut : List Char := ("put").toList

def cmdGet : List Char := ("get").toList

def cmdClose : List Char := ("close").toList

/-- Model of a decoded Request. The Body reader is `none` when no body is
attached (a nil io.Reader); `some bs` models a reader over exactly `bs`. -/
structure RequestM where
  id : Int := 0
  command : List Char := []
  actionID : List Nat := []
  outputID : List Nat := []
  bodyBytes : Option (List Nat) := none
  bodySize : Int := 0
deriving DecidableEq

/-- The byte sequence a Request's Body reader produces (a nil reader
produces nothing). -/
def bodyContents (o : Option (List Nat)) : List Nat := o.getD []

/-- Model of readLine: read lines from the input, skipping lines that are
empty after trimming; none models io.EOF. -/
def readLineM : List (List Char) → Option (List Char × List (List Char))
  | [] => none
  | l :: rest => if (trimSpace l).length > 0 then some (l, rest) else readLineM rest

/-- Read failures: end of input, or a framing error with a message. -/
inductive ReadErr where
  | eof
  | fail (msg : List Char)
deriving DecidableEq

def failedUnmarshalBodyMsg : List Char := ("failed to unmarshal body as JSON string").toList

def failedDecodeBodyMsg : List Char := ("failed to decode base64 body").toList

def failedUnmarshalReqMsg : List Char := ("failed to unmarshal request").toList

/-- Model of the body-framing half of ReadRequest: for a put request with
BodySize > 0, read the next non-empty line, json-unmarshal it as a string
literal, base64-decode it, and attach a reader over the bytes. -/
def readRequestBody (req : RequestM) (lines : List (List Char)) :
    Except ReadErr (RequestM × List (List Char)) :=
  if req.command = cmdPut ∧ req.bodySize > 0 then
    match readLineM lines with
    | none => .error .eof
    | some (bodyLine, rest) =>
      match jsonParseString bodyLine with
      | none => .error (.fail failedUnmarshalBodyMsg)
      | some b64s =>
        match b64decode b64s with
        | none => .error (.fail failedDecodeBodyMsg)
        | some bytes => .ok ({ req with bodyBytes := some bytes }, rest)
  else .ok (req, lines)

/-- Model of ReadRequest, with json.Unmarshal of the request object line
abstracted as a parameter (it is standard-library code external to the
repository); none models an unmarshal error. -/
def readRequestM (unm : List Char → Option RequestM) (lines : List (List Char)) :
    Except ReadErr (RequestM × List (List Char)) :=
  match readLineM lines with
  | none => .error .eof
  | some (line, rest) =>
    match unm line with
    | none => .error (.fail failedUnmarshalReqMsg)
    | some req => readRequestBody req rest

/-! ## Responses and their JSON serialization (server.go SendResponse) -/

/-- Proleptic-Gregorian civil date from days since the Unix epoch
(Howard Hinnant's algorithm, as used by time.Time formatting in UTC). -/
def civilFromDays (z0 : Int) : Int × Int × Int :=
  let z := z0 + 719468
  let era : Int := (if 0 ≤ z then z else z - 146096) / 146097
  let doe : Int := z - era * 146097
  let yoe : Int := (doe - doe / 1460 + doe / 36524 - doe / 146096) / 365
  let y : Int := yoe + era * 400
  let doy : Int := doe - (365 * yoe + yoe / 4 - yoe / 100)
  let mp : Int := (5 * doy + 2) / 153
  let d : Int := doy - (153 * mp + 2) / 5 + 1
  let m : Int := if mp < 10 then mp + 3 else mp - 9
  (if m ≤ 2 then y + 1 else y, m, d)

/-- Pad a decimal rendering with leading zeros to the given width. -/
def leftPad (w : Nat) (s : List Char) : List Char :=
  List.replicate (w - s.length) '0' ++ s

/-- Model of time.Time JSON marshaling (RFC 3339, UTC, whole seconds;
the program only ever transports times produced by time.Unix). -/
def marshalTime (secs : Int) : List Char :=
  let days := Int.fdiv secs 86400
  let rem := Int.emod secs 86400
  let ymd := civilFromDays days
  leftPad 4 (natToChars ymd.1.natAbs) ++ '-' ::
    (leftPad 2 (natToChars ymd.2.1.natAbs) ++ '-' ::
      (leftPad 2 (natToChars ymd.2.2.natAbs) ++ 'T' ::
        (leftPad 2 (natToChars (rem / 3600).natAbs) ++ ':' ::
          (leftPad 2 (natToChars (rem % 3600 / 60).natAbs) ++ ':' ::
            (leftPad 2 (natToChars (rem % 60).natAbs) ++ ['Z'])))))

/-- Model of a Response. `time` is the optional unix-seconds value carried
by the *time.Time pointer (none models a nil pointer). -/
structure ResponseM where
  id : Int := 0
  err : List Char := []
  knownCommands : List (List Char) := []
  miss : Bool := false
  outputID : List Nat := []
  size : Int := 0
  time : Option Int := none
  diskPath : List Char := []
deriving DecidableEq

/-- One serialized JSON object member. -/
def jsonMember (key val : List Char) : List Char := jsonQuote key ++ ':' :: val

/-- Comma-join serialized members. -/
def joinComma : List (List Char) → List Char
  | [] => []
  | [x] => x
  | x :: xs => x ++ ',' :: joinComma xs

/-- Model of json.Marshal on the Response struct: fields in declaration
order (ID, Err, KnownCommands, Miss, OutputID, Size, Time, DiskPath),
each tagged omitempty so zero values are omitted; []byte marshals as a
base64 string, []Cmd as an array of strings. -/
def marshalResponse (r : ResponseM) : List Char :=
  let fs : List (List Char) :=
    (if r.id = 0 then [] else [jsonMember (("ID").toList) (intToChars r.id)]) ++
    (if r.err = [] then [] else [jsonMember (("Err").toList) (jsonQuote r.err)]) ++
    (if r.knownCommands = [] then []
      else [jsonMember (("KnownCommands").toList)
        ('[' :: (joinComma (r.knownCommands.map jsonQuote) ++ [']']))]) ++
    (if r.miss = false then []
      else [jsonMember (("Miss").toList) (("true").toList)]) ++
    (if r.outputID = [] then []
      else [jsonMember (("OutputID").toList) (jsonQuote (b64encode r.outputID))]) ++
    (if r.size = 0 then [] else [jsonMember (("Size").toList) (intToChars r.size)]) ++
    ((r.time.map (fun t => [jsonMember (("Time").toList) (jsonQuote (marshalTime t))])).getD []) ++
    (if r.diskPath = [] then []
      else [jsonMember (("DiskPath").toList) (jsonQuote r.diskPath)])
  '\x7b' :: (joinComma fs ++ ['\x7d'])

/-- Model of SendResponse: the marshaled response followed by one newline. -/
def sendResponseBytes (r : ResponseM) : List Char := marshalResponse r ++ ['\n']

/-- The initial capabilities response of SendInitialResponse. -/
def initialResponse : ResponseM :=
  { id := 0, knownCommands := [cmdPut, cmdGet, cmdClose] }

/-! ## The request broker (server.go HandleRequest / Run) -/

/-- Result of a backend Get. -/
structure GetResultM where
  outputID : List Nat := []
  diskPath : List Char := []
  size : Int := 0
  putTime : Option Int := none
  miss : Bool := false
deriving DecidableEq

/-- A storage backend as a record of pure state transitions over a caller
chosen state type. Put returns the disk path; Get returns a GetResultM. -/
structure BackendM (σ : Type) where
  put : σ → List Nat → List Nat → Option (List Nat) → Int → σ × Except (List Char) (List Char)
  get : σ → List Nat → σ × Except (List Char) GetResultM
  close : σ → σ × Option (List Char)

def unknownCommandMsg (cmd : List Char) : List Char := ("unknown command: ").toList ++ cmd

/-- Model of HandleRequest: dispatch on the command, fill the response
(whose ID is set to the request ID first), and report whether the handler
returned an error. The singleflight Do around the backend call executes
its function directly here (the sequential linearization of the loop). -/
def handleRequest {σ : Type} (B : BackendM σ) (st : σ) (req : RequestM) :
    σ × ResponseM × Bool :=
  if req.command = cmdPut then
    let pr := B.put st req.actionID req.outputID req.bodyBytes req.bodySize
    match pr.2 with
    | .error e => (pr.1, { id := req.id, err := e, miss := true }, true)
    | .ok dp => (pr.1, { id := req.id, diskPath := dp }, false)
  else if req.command = cmdGet then
    let gr := B.get st req.actionID
    match gr.2 with
    | .error e => (gr.1, { id := req.id, err := e, miss := true }, true)
    | .ok g =>
      if g.miss then (gr.1, { id := req.id, miss := g.miss }, false)
      else (gr.1, { id := req.id, miss := g.miss, outputID := g.outputID, size := g.size,
                    time := g.putTime, diskPath := g.diskPath }, false)
  else if req.command = cmdClose then
    let cr := B.close st
    match cr.2 with
    | some e => (cr.1, { id := req.id, err := e }, true)
    | none => (cr.1, { id := req.id }, false)
  else (st, { id := req.id, err := unknownCommandMsg req.command }, true)

/-- Outcome of the serving loop: responses sent (in order), requests
consumed and handled (in order), and an optional fatal framing error. -/
structure RunResult where
  sent : List ResponseM
  handled : List RequestM
  fatal : Option (List Char)
deriving DecidableEq

/-- The serving loop of Run, sequentially linearized: read a request,
stop at EOF, abort on framing errors, handle close and stop, otherwise
handle the request, send its response and continue. The fuel argument
makes the recursion structural; every iteration consumes at least one
input line, so `lines.length + 1` fuel is never exhausted. -/
def runLoopF {σ : Type} (unm : List Char → Option RequestM) (B : BackendM σ) :
    Nat → σ → List (List Char) → RunResult
  | 0, _, _ => ⟨[], [], none⟩
  | fuel + 1, st, lines =>
    match readRequestM unm lines with
    | .error .eof => ⟨[], [], none⟩
    | .error (.fail e) => ⟨[], [], some e⟩
    | .ok (req, rest) =>
      if req.command = cmdClose then
        let p := handleRequest B st req
        ⟨[p.2.1], [req], none⟩
      else
        let p := handleRequest B st req
        let r := runLoopF unm B fuel p.1 rest
        ⟨p.2.1 :: r.sent, req :: r.handled, r.fatal⟩

/-- Model of Run: send the initial capabilities response, then serve. -/
def runM {σ : Type} (unm : List Char → Option RequestM) (B : BackendM σ) (st : σ)
    (lines : List (List Char)) : RunResult :=
  let r := runLoopF unm B (lines.length + 1) st lines
  ⟨initialResponse :: r.sent, r.handled, r.fatal⟩

/-! ## Filesystem model, sidecar metadata, local cache and disk backend -/

/-- A filesystem: map from paths to optional file contents. -/
def FSModel : Type := List Char → Option (List Char)

/-- Write (create or replace) a file. -/
def fsUpdate (fs : FSModel) (path contents : List Char) : FSModel :=
  fun p => if p = path then some contents else fs p

/-- Remove a file. -/
def fsRemove (fs : FSModel) (path : List Char) : FSModel :=
  fun p => if p = path then none else fs p

/-- filepath.Join of a directory and a clean name. -/
def joinPath (dir name : List Char) : List Char := dir ++ '/' :: name

/-- actionIDToPath of both LocalCache and the Disk backend: the hex of
the action ID under the cache directory (assumed absolute, so that
filepath.Abs is the identity on the result). -/
def actionIDToPath (dir : List Char) (actionID : List Nat) : List Char :=
  joinPath dir (hexEncode actionID)

/-- metadataPath: the body path with ".meta" appended. -/
def metadataPath (dir : List Char) (actionID : List Nat) : List Char :=
  actionIDToPath dir actionID ++ ('.' :: ('m' :: ('e' :: ('t' :: ['a']))))

/-- The field keys of the sidecar format (with their trailing colon). -/
def outputIDKey : List Char := ['o', 'u', 't', 'p', 'u', 't', 'I', 'D', ':']

def sizeKey : List Char := ['s', 'i', 'z', 'e', ':']

def timeKey : List Char := ['t', 'i', 'm', 'e', ':']

/-- The sidecar contents written by LocalCache.writeMetadata and by
Disk.Put: Sprintf("outputID:%s\nsize:%d\ntime:%d\n", hex, size, unix). -/
def metaContent (outputID : List Nat) (size timeUnix : Int) : List Char :=
  outputIDKey ++ hexEncode outputID ++ '\n' ::
    (sizeKey ++ intToChars size ++ '\n' ::
      (timeKey ++ intToChars timeUnix ++ ['\n']))

/-- The three variables filled by the sidecar parse loop. -/
structure MetaFields where
  outputIDHex : List Char
  size : Int
  putTimeUnix : Int
deriving DecidableEq

/-- One iteration of the parse loop shared (verbatim) by
LocalCache.readMetadata and Disk.Get: trim the line, match a field by its
prefix, scan the value with Sscanf (leaving the previous value when the
scan fails), ignore unknown lines. -/
def scanMetaLine (acc : MetaFields) (line : List Char) : MetaFields :=
  let t := trimSpace line
  if startsWith outputIDKey t then
    match scanStr (t.drop 9) with
    | some s => { acc with outputIDHex := s }
    | none => acc
  else if startsWith sizeKey t then
    match scanInt (t.drop 5) with
    | some n => { acc with size := n }
    | none => acc
  else if startsWith timeKey t then
    match scanInt (t.drop 5) with
    | some n => { acc with putTimeUnix := n }
    | none => acc
  else acc

/-- The parse loop over all lines of a sidecar, starting from the zero
values of the three variables. -/
def scanMetaFields (data : List Char) : MetaFields :=
  (splitOnNl data).foldl scanMetaLine ⟨[], 0, 0⟩

/-- Parsed sidecar metadata; putTime is the unix-seconds value passed to
time.Unix(_, 0). -/
structure LocalCacheMetadata where
  outputID : List Nat
  size : Int
  putTime : Int
deriving DecidableEq

/-- Model of LocalCache.readMetadata: error when the sidecar is absent,
when the outputID field is missing, or when its hex does not decode. -/
def readMetadata (fs : FSModel) (cacheDir : List Char) (actionID : List Nat) :
    Except (List Char) LocalCacheMetadata :=
  match fs (metadataPath cacheDir actionID) with
  | none => .error (("metadata file not found").toList)
  | some data =>
    let f := scanMetaFields data
    if f.outputIDHex = [] then .error (("metadata missing outputID field").toList)
    else
      match hexDecode f.outputIDHex with
      | none => .error (("failed to decode outputID").toList)
      | some oid => .ok ⟨oid, f.size, f.putTimeUnix⟩

/-- Model of LocalCache.Check: null when the body file is absent; null
when the sidecar fails to read (only logging a warning); otherwise the
parsed metadata. -/
def lcCheck (fs : FSModel) (cacheDir : List Char) (actionID : List Nat) :
    Option LocalCacheMetadata :=
  match fs (actionIDToPath cacheDir actionID) with
  | none => none
  | some _ =>
    match readMetadata fs cacheDir actionID with
    | .error _ => none
    | .ok m => some m

/-- Whether Check logs its metadata-missing/corrupted warning. -/
def lcCheckWarns (fs : FSModel) (cacheDir : List Char) (actionID : List Nat) : Bool :=
  (fs (actionIDToPath cacheDir actionID)).isSome &&
    (match readMetadata fs cacheDir actionID with
     | .error _ => true
     | .ok _ => false)

/-- Model of LocalCache.Write (success path): stream the body into a
temporary file and atomically rename it over the body path; collapsed to
one atomic update of the path. Bytes are stored as chars. Returns the
absolute path (cacheDir is absolute, filepath.Abs is the identity). -/
def lcWrite (fs : FSModel) (cacheDir : List Char) (actionID : List Nat)
    (body : List Nat) : FSModel × List Char :=
  (fsUpdate fs (actionIDToPath cacheDir actionID) (body.map Char.ofNat),
    actionIDToPath cacheDir actionID)

/-- Model of LocalCache.writeMetadata with an injected failure flag: when
the temp write or the rename fails, the filesystem is unchanged and an
error is returned; otherwise the sidecar is atomically replaced. -/
def lcWriteMetadata (fs : FSModel) (cacheDir : List Char) (actionID : List Nat)
    (meta : LocalCacheMetadata) (fails : Bool) : FSModel × Option (List Char) :=
  if fails then (fs, some (("failed to write temp metadata").toList))
  else
    (fsUpdate fs (metadataPath cacheDir actionID)
      (metaContent meta.outputID meta.size meta.putTime), none)

/-- Model of LocalCache.WriteWithMetadata: write the body, then the
metadata; a metadata failure is only logged (the error is dropped) and
the disk path is still returned without error. -/
def writeWithMetadata (fs : FSModel) (cacheDir : List Char) (actionID : List Nat)
    (body : List Nat) (meta : LocalCacheMetadata) (metaFails : Bool) :
    FSModel × Except (List Char) (List Char) :=
  let w := lcWrite fs cacheDir actionID body
  let m := lcWriteMetadata w.1 cacheDir actionID meta metaFails
  (m.1, .ok w.2)

/-- Model of Disk.Put: create (truncate) the body file, copy the body when
bodySize > 0 and the reader is non-nil (removing the file on a size
mismatch), then write the metadata file. I/O failures of the pure
filesystem are not modelled; the size mismatch is the reachable error. -/
def diskPut (fs : FSModel) (baseDir : List Char) (actionID outputID : List Nat)
    (body : Option (List Nat)) (bodySize : Int) (now : Int) :
    FSModel × Except (List Char) (List Char) :=
  let diskPath := actionIDToPath baseDir actionID
  let metaPath := metadataPath baseDir actionID
  let fs1 := fsUpdate fs diskPath []
  let step : Except (List Char) FSModel :=
    if bodySize > 0 ∧ body.isSome then
      let bs := bodyContents body
      if (bs.length : Int) ≠ bodySize then .error (("size mismatch").toList)
      else .ok (fsUpdate fs1 diskPath (bs.map Char.ofNat))
    else .ok fs1
  match step with
  | .error e => (fsRemove fs1 diskPath, .error e)
  | .ok fs2 => (fsUpdate fs2 metaPath (metaContent outputID bodySize now), .ok diskPath)

/-- Model of Disk.Get: miss when the body file or the metadata file is
absent or the outputID hex does not decode; otherwise a hit carrying the
parsed metadata and the absolute body path. -/
def diskGet (fs : FSModel) (baseDir : List Char) (actionID : List Nat) :
    Except (List Char) GetResultM :=
  let diskPath := actionIDToPath baseDir actionID
  match fs diskPath with
  | none => .ok { miss := true }
  | some _ =>
    match fs (metadataPath baseDir actionID) with
    | none => .ok { miss := true }
    | some metaData =>
      let f := scanMetaFields metaData
      match hexDecode f.outputIDHex with
      | none => .ok { miss := true }
      | some oid =>
        .ok { outputID := oid, diskPath := diskPath, size := f.size,
              putTime := some f.putTimeUnix, miss := false }

/-- The concrete filesystem of the C7 counterexample: the action [1]
already has a complete cache entry (body plus sidecar) from an earlier
store. -/
def fs7 : FSModel :=
  fsUpdate (fsUpdate (fun _ => none) (actionIDToPath ['/', 'c'] [1]) ['h'])
    (metadataPath ['/', 'c'] [1]) (metaContent [170] 1 5)

/-! ## Cross-process lock (dedupe/fslock.go FSLockGroup.Do) -/

/-- Outcome of the advisory-lock acquisition (TryLockContext with its
~1 second context timeout and 10 ms retry interval, abstracted). -/
inductive AcquireOutcome where
  | acquired
  | timeout
  | failed (e : List Char)

/-- The observable result of one FSLockGroup.Do call: the returned value,
the returned error, the shared flag, and how many times fn was run. -/
structure LockDoResult (V : Type) where
  value : Option V
  err : Option (List Char)
  shared : Bool
  fnCalls : Nat

/-- Model of FSLockGroup.Do: on an acquisition error the wrapped error is
returned; on an acquisition timeout the error "failed to acquire lock:
timeout" is returned; fn is executed only after acquisition; shared is
false on every path. -/
def fsLockGroupDo {V : Type} (outcome : AcquireOutcome)
    (fn : Unit → V × Option (List Char)) : LockDoResult V :=
  match outcome with
  | .failed e => ⟨none, some ((("failed to acquire lock: ").toList) ++ e), false, 0⟩
  | .timeout => ⟨none, some (("failed to acquire lock: timeout").toList), false, 0⟩
  | .acquired =>
    let r := fn ()
    ⟨some r.1, r.2, false, 1⟩

/-! ## Retry wrapper (server.go HandleRequestWithRetries) -/

/-- The observable result of HandleRequestWithRetries: the final
response, whether it was an error, the number of HandleRequest calls
made, and the sleeps performed before each retry (in milliseconds). -/
structure RetryResult where
  resp : ResponseM
  isErr : Bool
  attempts : Nat
  delays : List Nat
deriving DecidableEq

/-- The loop of HandleRequestWithRetries: `oracle a` is the (response,
returned-an-error) pair of the a-th HandleRequest call; `remaining` is
maxRetries - attempt. On success or for a close command the loop returns
immediately; with no retries remaining it returns the last result (the
two Go return sites yield the same pair); otherwise it sleeps
10ms * 2^attempt and retries. -/
def retryGo (oracle : Nat → ResponseM × Bool) (isClose : Bool) :
    Nat → Nat → List Nat → RetryResult
  | 0, attempt, acc =>
    let r := oracle attempt
    ⟨r.1, r.2, attempt + 1, acc⟩
  | rem + 1, attempt, acc =>
    let r := oracle attempt
    if !r.2 || isClose then ⟨r.1, r.2, attempt + 1, acc⟩
    else retryGo oracle isClose rem (attempt + 1) (acc ++ [10 * 2 ^ attempt])

/-- Model of HandleRequestWithRetries. -/
def handleRequestWithRetries (oracle : Nat → ResponseM × Bool) (isClose : Bool)
    (maxRetries : Nat) : RetryResult :=
  retryGo oracle isClose maxRetries 0 []

theorem b64charDec_b64char_fin : ∀ n : Fin 64, b64charDec (b64char n.val) = some n.val := by
  decide

theorem b64charDec_b64char (n : Nat) (h : n < 64) : b64charDec (b64char n) = some n :=
  b64charDec_b64char_fin ⟨n, h⟩

theorem b64char_ne_eq_fin : ∀ n : Fin 64, b64char n.val ≠ '=' := by decide

theorem b64char_ne_eq (n : Nat) (h : n < 64) : b64char n ≠ '=' :=
  b64char_ne_eq_fin ⟨n, h⟩

theorem b64_round_trip (bs : List Nat) (h : ∀ b ∈ bs, b < 256) :
    b64decode (b64encode bs) = some bs := by
  induction bs using b64encode.induct with
  | case1 => rfl
  | case2 b0 =>
    have h0 : b0 < 256 := h b0 (by simp)
    have e0 : b64charDec (b64char (b0 / 4)) = some (b0 / 4) :=
      b64charDec_b64char _ (by omega)
    have e1 : b64charDec (b64char (b0 % 4 * 16)) = some (b0 % 4 * 16) :=
      b64charDec_b64char _ (by omega)
    have v0 : b0 / 4 * 4 + b0 % 4 * 16 / 16 = b0 := by omega
    simp [b64encode, b64decode, e0, e1, v0]
    omega
  | case3 b0 b1 =>
    have h0 : b0 < 256 := h b0 (by simp)
    have h1 : b1 < 256 := h b1 (by simp)
    have e0 : b64charDec (b64char (b0 / 4)) = some (b0 / 4) :=
      b64charDec_b64char _ (by omega)
    have e1 : b64charDec (b64char (b0 % 4 * 16 + b1 / 16)) = some (b0 % 4 * 16 + b1 / 16) :=
      b64charDec_b64char _ (by omega)
    have e2 : b64charDec (b64char (b1 % 16 * 4)) = some (b1 % 16 * 4) :=
      b64charDec_b64char _ (by omega)
    have n2 : b64char (b1 % 16 * 4) ≠ '=' := b64char_ne_eq _ (by omega)
    have v0 : b0 / 4 * 4 + (b0 % 4 * 16 + b1 / 16) / 16 = b0 := by omega
    have v1 : (b0 % 4 * 16 + b1 / 16) % 16 * 16 + b1 % 16 * 4 / 4 = b1 := by omega
    simp [b64encode, b64decode, e0, e1, e2, n2, v0, v1]
    omega
  | case4 b0 b1 b2 rest ih =>
    have h0 : b0 < 256 := h b0 (by simp)
    have h1 : b1 < 256 := h b1 (by simp)
    have h2 : b2 < 256 := h b2 (by simp)
    have hrest : ∀ b ∈ rest, b < 256 := fun b hb => h b (by simp [hb])
    have e0 : b64charDec (b64char (b0 / 4)) = some (b0 / 4) :=
      b64charDec_b64char _ (by omega)
    have e1 : b64charDec (b64char (b0 % 4 * 16 + b1 / 16)) = some (b0 % 4 * 16 + b1 / 16) :=
      b64charDec_b64char _ (by omega)
    have e2 : b64charDec (b64char (b1 % 16 * 4 + b2 / 64)) = some (b1 % 16 * 4 + b2 / 64) :=
      b64charDec_b64char _ (by omega)
    have e3 : b64charDec (b64char (b2 % 64)) = some (b2 % 64) :=
      b64charDec_b64char _ (by omega)
    have n2 : b64char (b1 % 16 * 4 + b2 / 64) ≠ '=' := b64char_ne_eq _ (by omega)
    have n3 : b64char (b2 % 64) ≠ '=' := b64char_ne_eq _ (by omega)
    have v0 : b0 / 4 * 4 + (b0 % 4 * 16 + b1 / 16) / 16 = b0 := by omega
    have v1 : (b0 % 4 * 16 + b1 / 16) % 16 * 16 + (b1 % 16 * 4 + b2 / 64) / 4 = b1 := by
      omega
    have v2 : (b1 % 16 * 4 + b2 / 64) % 4 * 64 + b2 % 64 = b2 := by omega
    simp [b64encode, b64decode, e0, e1, e2, e3, n2, n3, v0, v1, v2, ih hrest]

theorem hexEncode_append (a b : List Nat) :
    hexEncode (a ++ b) = hexEncode a ++ hexEncode b := by
  induction a with
  | nil => rfl
  | cons x xs ih => simp [hexEncode, ih]

theorem fromHexChar_hexDigit_fin : ∀ d : Fin 16, fromHexChar (hexDigit d.val) = some d.val := by
  decide

theorem fromHexChar_hexDigit (d : Nat) (h : d < 16) : fromHexChar (hexDigit d) = some d :=
  fromHexChar_hexDigit_fin ⟨d, h⟩

theorem hexDecode_hexEncode (bs : List Nat) (h : ∀ b ∈ bs, b < 256) :
    hexDecode (hexEncode bs) = some bs := by
  induction bs with
  | nil => rfl
  | cons b rest ih =>
    have hb : b < 256 := h b (by simp)
    have hrest : ∀ x ∈ rest, x < 256 := fun x hx => h x (by simp [hx])
    have e1 : fromHexChar (hexDigit (b / 16)) = some (b / 16) :=
      fromHexChar_hexDigit _ (by omega)
    have e2 : fromHexChar (hexDigit (b % 16)) = some (b % 16) :=
      fromHexChar_hexDigit _ (by omega)
    have v : b / 16 * 16 + b % 16 = b := by omega
    simp [hexEncode, hexDecode, e1, e2, v, ih hrest]

/-! ## Facts about whitespace, trimming and splitting -/

theorem dropWhile_eq_self_of (p : Char → Bool) (l : List Char)
    (h : ∀ c ∈ l, p c = false) : l.dropWhile p = l := by
  cases l with
  | nil => rfl
  | cons c cs => simp [List.dropWhile, h c (by simp)]

theorem trimSpace_eq_self (l : List Char) (h : ∀ c ∈ l, goIsSpace c = false) :
    trimSpace l = l := by
  unfold trimSpace
  rw [dropWhile_eq_self_of _ _ h, dropWhile_eq_self_of, List.reverse_reverse]
  intro c hc
  exact h c (by simpa using hc)

theorem trimSpace_eq_nil (l : List Char) (h : trimSpace l = []) :
    ∀ c ∈ l, goIsSpace c = true := by
  unfold trimSpace at h
  rw [List.reverse_eq_nil_iff] at h
  rw [List.dropWhile_eq_nil_iff] at h
  intro c hc
  rcases (List.takeWhile_append_dropWhile (p := goIsSpace) (l := l)) ▸ List.mem_append.1
      ((List.takeWhile_append_dropWhile (p := goIsSpace) (l := l)).symm ▸ hc) with h1 | h2
  · exact List.mem_takeWhile_imp h1
  · exact h (c) (by simpa using h2)

theorem splitOnNl_append (a rest : List Char) (h : '\n' ∉ a) :
    splitOnNl (a ++ '\n' :: rest) = a :: splitOnNl rest := by
  induction a with
  | nil => simp [splitOnNl]
  | cons c cs ih =>
    have hc : c ≠ '\n' := by intro e; exact h (by simp [e])
    have hcs : '\n' ∉ cs := by intro e; exact h (by simp [e])
    simp [splitOnNl, hc, ih hcs]

theorem startsWith_append (p rest : List Char) : startsWith p (p ++ rest) = true := by
  induction p with
  | nil => rfl
  | cons c cs ih => simp [startsWith, ih]

/-! ## Digit-character facts and the decimal round trip -/

theorem hexDigit_facts_fin : ∀ d : Fin 16,
    goIsSpace (hexDigit d.val) = false ∧ hexDigit d.val ≠ '\n' ∧
    hexDigit d.val ≠ '-' ∧ hexDigit d.val ≠ '+' := by decide

theorem digitVal_hexDigit_fin : ∀ d : Fin 10,
    digitVal (hexDigit d.val) = some ((hexDigit d.val).toNat - 48) ∧
    (hexDigit d.val).toNat - 48 = d.val := by decide

theorem natToCharsAux_mem (fuel n : Nat) :
    ∀ c ∈ natToCharsAux fuel n, ∃ d, d < 10 ∧ c = hexDigit d := by
  induction fuel generalizing n with
  | zero => simp [natToCharsAux]
  | succ fuel ih =>
    by_cases hn : n = 0
    · simp [natToCharsAux, hn]
    · intro c hc
      simp only [natToCharsAux, if_neg hn, List.mem_cons] at hc
      rcases hc with hc | hc
      · exact ⟨n % 10, by omega, hc⟩
      · exact ih (n / 10) c hc

theorem natToChars_mem (n : Nat) :
    ∀ c ∈ natToChars n, ∃ d, d < 10 ∧ c = hexDigit d := by
  unfold natToChars
  by_cases hn : n = 0
  · simp only [if_pos hn]
    intro c hc
    exact ⟨0, by omega, by simpa using hc⟩
  · simp only [if_neg hn]
    intro c hc
    exact natToCharsAux_mem n n c (by simpa using hc)

theorem natToChars_not_space (n : Nat) : ∀ c ∈ natToChars n, goIsSpace c = false := by
  intro c hc
  obtain ⟨d, hd, rfl⟩ := natToChars_mem n c hc
  exact (hexDigit_facts_fin ⟨d, by omega⟩).1

theorem natToChars_ne_nl (n : Nat) : '\n' ∉ natToChars n := by
  intro hc
  obtain ⟨d, hd, he⟩ := natToChars_mem n '\n' hc
  exact (hexDigit_facts_fin ⟨d, by omega⟩).2.1 he.symm

theorem intToChars_not_space (i : Int) : ∀ c ∈ intToChars i, goIsSpace c = false := by
  intro c hc
  unfold intToChars at hc
  by_cases hi : i < 0
  · simp only [if_pos hi, List.mem_cons] at hc
    rcases hc with rfl | hc
    · decide
    · exact natToChars_not_space _ c hc
  · simp only [if_neg hi] at hc
    exact natToChars_not_space _ c hc

theorem intToChars_ne_nl (i : Int) : '\n' ∉ intToChars i := by
  intro hc
  unfold intToChars at hc
  by_cases hi : i < 0
  · simp only [if_pos hi, List.mem_cons] at hc
    rcases hc with hc | hc
    · exact absurd hc.symm (by decide)
    · exact natToChars_ne_nl _ hc
  · simp only [if_neg hi] at hc
    exact natToChars_ne_nl _ hc

theorem takeDigits_all (l : List Char) (h : ∀ c ∈ l, (digitVal c).isSome) :
    takeDigits l = (l.map (fun c => c.toNat - 48), []) := by
  induction l with
  | nil => rfl
  | cons c cs ih =>
    have hc : (digitVal c).isSome := h c (by simp)
    have : digitVal c = some (c.toNat - 48) := by
      unfold digitVal at hc ⊢
      by_cases hb : '0' ≤ c ∧ c ≤ '9'
      · simp [hb]
      · rw [if_neg hb] at hc
        simp at hc
    simp [takeDigits, this, ih (fun x hx => h x (by simp [hx]))]

theorem natToCharsAux_zero (fuel : Nat) : natToCharsAux fuel 0 = [] := by
  cases fuel <;> simp [natToCharsAux]

theorem digitsToNat_append_one (ds : List Nat) (d : Nat) :
    digitsToNat (ds ++ [d]) = digitsToNat ds * 10 + d := by
  unfold digitsToNat
  rw [List.foldl_append]
  rfl

theorem natToCharsAux_val (fuel : Nat) : ∀ n ≤ fuel,
    digitsToNat (((natToCharsAux fuel n).reverse).map (fun c => c.toNat - 48)) = n := by
  induction fuel with
  | zero =>
    intro n hn
    interval_cases n
    rfl
  | succ fuel ih =>
    intro n hn
    by_cases h0 : n = 0
    · simp [h0, natToCharsAux_zero, digitsToNat]
    · have hd : n / 10 ≤ fuel := by omega
      have hv : (hexDigit (n % 10)).toNat - 48 = n % 10 :=
        (digitVal_hexDigit_fin ⟨n % 10, by omega⟩).2
      simp only [natToCharsAux, if_neg h0, List.reverse_cons, List.map_append,
        List.map_cons, List.map_nil]
      rw [digitsToNat_append_one, ih (n / 10) hd, hv]
      omega

theorem natToChars_val (n : Nat) :
    digitsToNat ((natToChars n).map (fun c => c.toNat - 48)) = n := by
  unfold natToChars
  by_cases h0 : n = 0
  · simp [h0, digitsToNat]
  · rw [if_neg h0]
    exact natToCharsAux_val n n (le_refl n)

theorem natToChars_ne_nil (n : Nat) : natToChars n ≠ [] := by
  unfold natToChars
  by_cases h0 : n = 0
  · simp [h0]
  · simp only [if_neg h0]
    intro he
    have : digitsToNat (((natToCharsAux n n).reverse).map (fun c => c.toNat - 48)) = n :=
      natToCharsAux_val n n (le_refl n)
    rw [List.reverse_eq_nil_iff.1 he] at this
    simp [digitsToNat] at this
    exact h0 this.symm

theorem natToChars_digits (n : Nat) : ∀ c ∈ natToChars n, (digitVal c).isSome := by
  intro c hc
  obtain ⟨d, hd, rfl⟩ := natToChars_mem n c hc
  rw [(digitVal_hexDigit_fin ⟨d, hd⟩).1]
  rfl

theorem natToChars_head_facts (n : Nat) :
    startsWith ['-'] (natToChars n) = false ∧ startsWith ['+'] (natToChars n) = false := by
  cases hc : natToChars n with
  | nil => exact absurd hc (natToChars_ne_nil n)
  | cons c cs =>
    have hmem : c ∈ natToChars n := by rw [hc]; simp
    obtain ⟨d, hd, rfl⟩ := natToChars_mem n c hmem
    have h1 : hexDigit d ≠ '-' := (hexDigit_facts_fin ⟨d, by omega⟩).2.2.1
    have h2 : hexDigit d ≠ '+' := (hexDigit_facts_fin ⟨d, by omega⟩).2.2.2
    constructor <;> simp [startsWith, h1, h2]
    · intro he
      exact absurd he.symm h1
    · intro he
      exact absurd he.symm h2

theorem scanInt_natToChars (n : Nat) : scanInt (natToChars n) = some (n : Int) := by
  have hds := dropWhile_eq_self_of goIsSpace (natToChars n) (natToChars_not_space _)
  have htd := takeDigits_all (natToChars n) (natToChars_digits _)
  obtain ⟨hm, hp⟩ := natToChars_head_facts n
  have hnil : (natToChars n).map (fun c => c.toNat - 48) ≠ [] := by
    simp [natToChars_ne_nil]
  unfold scanInt
  simp only [hds, hm, hp, Bool.or_self, Bool.false_eq_true, if_false, htd,
    if_neg hnil, natToChars_val]

theorem scanInt_intToChars (i : Int) : scanInt (intToChars i) = some i := by
  by_cases hi : i < 0
  · have hne : intToChars i = '-' :: natToChars i.natAbs := by simp [intToChars, hi]
    have hds : List.dropWhile goIsSpace ('-' :: natToChars i.natAbs) =
        '-' :: natToChars i.natAbs := by
      refine dropWhile_eq_self_of _ _ ?_
      intro c hc
      rcases List.mem_cons.1 hc with rfl | hc
      · decide
      · exact natToChars_not_space _ c hc
    have hsw : startsWith ['-'] ('-' :: natToChars i.natAbs) = true := by
      simp [startsWith]
    have htd := takeDigits_all (natToChars i.natAbs) (natToChars_digits _)
    have hnil : (natToChars i.natAbs).map (fun c => c.toNat - 48) ≠ [] := by
      simp [natToChars_ne_nil]
    have hv : -((i.natAbs : Nat) : Int) = i := by omega
    unfold scanInt
    simp only [hne, hds, hsw, Bool.true_or, if_true, List.drop_one, List.tail_cons,
      htd, if_neg hnil, natToChars_val, hv]
  · have hne : intToChars i = natToChars i.natAbs := by simp [intToChars, hi]
    have hv : ((i.natAbs : Nat) : Int) = i := by omega
    rw [hne, scanInt_natToChars, hv]

theorem takeWhile_eq_self_of (p : Char → Bool) (l : List Char)
    (h : ∀ c ∈ l, p c = true) : l.takeWhile p = l := by
  induction l with
  | nil => rfl
  | cons c cs ih =>
    simp [List.takeWhile, h c (by simp), ih (fun x hx => h x (by simp [hx]))]

theorem scanStr_all (l : List Char) (hne : l ≠ [])
    (h : ∀ c ∈ l, goIsSpace c = false) : scanStr l = some l := by
  unfold scanStr
  rw [dropWhile_eq_self_of _ _ h,
    takeWhile_eq_self_of _ l (by intro c hc; simp [h c hc]), if_neg hne]

theorem hexEncode_mem (bs : List Nat) (h : ∀ b ∈ bs, b < 256) :
    ∀ c ∈ hexEncode bs, ∃ d, d < 16 ∧ c = hexDigit d := by
  induction bs with
  | nil => simp [hexEncode]
  | cons b rest ih =>
    have hb : b < 256 := h b (by simp)
    intro c hc
    simp only [hexEncode, List.mem_cons] at hc
    rcases hc with rfl | rfl | hc
    · exact ⟨b / 16, by omega, rfl⟩
    · exact ⟨b % 16, by omega, rfl⟩
    · exact ih (fun x hx => h x (by simp [hx])) c hc

theorem hexEncode_not_space (bs : List Nat) (h : ∀ b ∈ bs, b < 256) :
    ∀ c ∈ hexEncode bs, goIsSpace c = false := by
  intro c hc
  obtain ⟨d, hd, rfl⟩ := hexEncode_mem bs h c hc
  exact (hexDigit_facts_fin ⟨d, hd⟩).1

theorem hexEncode_ne_nl (bs : List Nat) (h : ∀ b ∈ bs, b < 256) : '\n' ∉ hexEncode bs := by
  intro hc
  obtain ⟨d, hd, he⟩ := hexEncode_mem bs h '\n' hc
  exact (hexDigit_facts_fin ⟨d, hd⟩).2.1 he.symm

theorem jsonEscapeChar_safe (c : Char) (h : jsonSafeChar c = true) :
    jsonEscapeChar c = [c] := by
  simp only [jsonSafeChar, Bool.and_eq_true, Bool.not_eq_true', decide_eq_false_iff_not,
    Bool.not_eq_true, decide_eq_false_iff_not] at h
  obtain ⟨⟨⟨⟨⟨h1, h2⟩, h3⟩, h4⟩, h5⟩, h6⟩ := h
  have h3n : ¬c.toNat < 32 := by simpa using h3
  have hn : c ≠ '\n' := by intro e; rw [e] at h3n; exact h3n (by decide)
  have hr : c ≠ '\r' := by intro e; rw [e] at h3n; exact h3n (by decide)
  have ht : c ≠ '\t' := by intro e; rw [e] at h3n; exact h3n (by decide)
  simp [jsonEscapeChar, h1, h2, h3n, h4, h5, h6, hn, hr, ht]

theorem jsonStringBody_safe (s : List Char) (rest : List Char)
    (h : ∀ c ∈ s, jsonSafeChar c = true) :
    jsonStringBody ((s.map jsonEscapeChar).flatten ++ '"' :: rest) = some (s, rest) := by
  induction s with
  | nil =>
    rw [List.map_nil, List.flatten_nil, List.nil_append, jsonStringBody.eq_def]
    simp
  | cons c cs ih =>
    have hc : jsonSafeChar c = true := h c (by simp)
    have hcs : ∀ x ∈ cs, jsonSafeChar x = true := fun x hx => h x (by simp [hx])
    simp only [jsonSafeChar, Bool.and_eq_true, Bool.not_eq_true', decide_eq_false_iff_not,
      Bool.not_eq_true, decide_eq_false_iff_not] at hc
    obtain ⟨⟨⟨⟨⟨h1, h2⟩, h3⟩, h4⟩, h5⟩, h6⟩ := hc
    have h3n : ¬c.toNat < 32 := by simpa using h3
    rw [List.map_cons, jsonEscapeChar_safe c (h c (by simp))]
    simp only [List.flatten_cons, List.singleton_append, List.cons_append]
    rw [jsonStringBody.eq_def]
    simp only [if_neg h1, if_neg h2, if_neg h3n, List.nil_append, ih hcs, Option.some_bind]
    rfl

theorem jsonParseString_quote (s : List Char) (h : ∀ c ∈ s, jsonSafeChar c = true) :
    jsonParseString (jsonQuote s) = some s := by
  unfold jsonParseString jsonQuote
  have hws : jsonWS '"' = false := by decide
  simp only [List.dropWhile, hws]
  rw [show ((s.map jsonEscapeChar).flatten ++ ['"'] : List Char) =
    (s.map jsonEscapeChar).flatten ++ '"' :: [] from rfl]
  rw [jsonStringBody_safe s [] h]
  rfl

theorem b64encode_mem (bs : List Nat) (h : ∀ b ∈ bs, b < 256) :
    ∀ c ∈ b64encode bs, (∃ n, n < 64 ∧ c = b64char n) ∨ c = '=' := by
  induction bs using b64encode.induct with
  | case1 => simp [b64encode]
  | case2 b0 =>
    have h0 : b0 < 256 := h b0 (by simp)
    intro c hc
    simp only [b64encode, List.mem_cons, List.mem_singleton] at hc
    rcases hc with rfl | rfl | rfl | rfl | hc
    · exact Or.inl ⟨b0 / 4, by omega, rfl⟩
    · exact Or.inl ⟨b0 % 4 * 16, by omega, rfl⟩
    · exact Or.inr rfl
    · exact Or.inr rfl
    · simp at hc
  | case3 b0 b1 =>
    have h0 : b0 < 256 := h b0 (by simp)
    have h1 : b1 < 256 := h b1 (by simp)
    intro c hc
    simp only [b64encode, List.mem_cons, List.mem_singleton] at hc
    rcases hc with rfl | rfl | rfl | rfl | hc
    · exact Or.inl ⟨b0 / 4, by omega, rfl⟩
    · exact Or.inl ⟨b0 % 4 * 16 + b1 / 16, by omega, rfl⟩
    · exact Or.inl ⟨b1 % 16 * 4, by omega, rfl⟩
    · exact Or.inr rfl
    · simp at hc
  | case4 b0 b1 b2 rest ih =>
    have h0 : b0 < 256 := h b0 (by simp)
    have h1 : b1 < 256 := h b1 (by simp)
    have h2 : b2 < 256 := h b2 (by simp)
    have hrest : ∀ b ∈ rest, b < 256 := fun b hb => h b (by simp [hb])
    intro c hc
    simp only [b64encode, List.mem_cons] at hc
    rcases hc with rfl | rfl | rfl | rfl | hc
    · exact Or.inl ⟨b0 / 4, by omega, rfl⟩
    · exact Or.inl ⟨b0 % 4 * 16 + b1 / 16, by omega, rfl⟩
    · exact Or.inl ⟨b1 % 16 * 4 + b2 / 64, by omega, rfl⟩
    · exact Or.inl ⟨b2 % 64, by omega, rfl⟩
    · exact ih hrest c hc

theorem b64char_safe_fin : ∀ n : Fin 64, jsonSafeChar (b64char n.val) = true := by decide

theorem b64encode_safe (bs : List Nat) (h : ∀ b ∈ bs, b < 256) :
    ∀ c ∈ b64encode bs, jsonSafeChar c = true := by
  intro c hc
  rcases b64encode_mem bs h c hc with ⟨n, hn, rfl⟩ | rfl
  · exact b64char_safe_fin ⟨n, hn⟩
  · decide

theorem readLineM_skip (ws lines : List (List Char)) (h : ∀ l ∈ ws, trimSpace l = []) :
    readLineM (ws ++ lines) = readLineM lines := by
  induction ws with
  | nil => rfl
  | cons w rest ih =>
    have hw : trimSpace w = [] := h w (by simp)
    simp [readLineM, hw, ih (fun l hl => h l (by simp [hl]))]

theorem readLineM_cons (l : List Char) (rest : List (List Char)) (h : trimSpace l ≠ []) :
    readLineM (l :: rest) = some (l, rest) := by
  have : (trimSpace l).length > 0 := by
    cases hc : trimSpace l with
    | nil => exact absurd hc h
    | cons a b => simp
  simp [readLineM, this]

theorem jsonQuote_trim_ne (s : List Char) : trimSpace (jsonQuote s) ≠ [] := by
  intro h
  have := trimSpace_eq_nil _ h '"' (by simp [jsonQuote])
  exact absurd this (by decide)

/-- Claim C3: for every byte sequence body (including the empty sequence
and sequences containing every 8-bit value), reading a put request whose
next non-empty line is the JSON string literal of the standard base64
encoding of body yields a request whose Body reader produces exactly
body, byte for byte. -/
theorem claim3_body_round_trip (body : List Nat) (hbytes : ∀ b ∈ body, b < 256)
    (req : RequestM) (hcmd : req.command = cmdPut)
    (hsize : req.bodySize = (body.length : Int)) (hnil : req.bodyBytes = none)
    (ws : List (List Char)) (hws : ∀ l ∈ ws, trimSpace l = [])
    (rest : List (List Char)) :
    ∃ req2 rest2,
      readRequestBody req (ws ++ jsonQuote (b64encode body) :: rest) = .ok (req2, rest2) ∧
      bodyContents req2.bodyBytes = body := by
  by_cases hb : body = []
  · subst hb
    have hnot : ¬(req.command = cmdPut ∧ req.bodySize > 0) := by
      intro hand
      rw [hsize] at hand
      simp at hand
    exact ⟨req, ws ++ jsonQuote (b64encode []) :: rest,
      by simp [readRequestBody, hnot], by rw [hnil]; rfl⟩
  · have hpos : req.bodySize > 0 := by
      rw [hsize]
      have : body.length ≠ 0 := by simpa using hb
      omega
    refine ⟨{ req with bodyBytes := some body }, rest, ?_, rfl⟩
    unfold readRequestBody
    rw [if_pos ⟨hcmd, hpos⟩, readLineM_skip ws _ hws,
      readLineM_cons _ _ (jsonQuote_trim_ne _)]
    simp only [jsonParseString_quote _ (b64encode_safe body hbytes),
      b64_round_trip body hbytes]

theorem claim3_witness :
    ∃ req2 rest2,
      readRequestBody { id := 4, command := cmdPut, bodySize := 3 }
        ([[' ']] ++ jsonQuote (b64encode [0, 255, 10]) :: []) = .ok (req2, rest2) ∧
      bodyContents req2.bodyBytes = [0, 255, 10] :=
  claim3_body_round_trip [0, 255, 10] (by decide) { id := 4, command := cmdPut, bodySize := 3 }
    (by decide) (by decide) (by decide) [[' ']] (by decide) []

theorem handleRequest_id {σ : Type} (B : BackendM σ) (st : σ) (req : RequestM) :
    (handleRequest B st req).2.1.id = req.id := by
  simp only [handleRequest]
  repeat first
  | rfl
  | split

theorem runLoopF_ids {σ : Type} (unm : List Char → Option RequestM) (B : BackendM σ) :
    ∀ (fuel : Nat) (st : σ) (lines : List (List Char)),
      (runLoopF unm B fuel st lines).sent.map (fun r => r.id) =
        (runLoopF unm B fuel st lines).handled.map (fun q => q.id) := by
  intro fuel
  induction fuel with
  | zero => intro st lines; rfl
  | succ fuel ih =>
    intro st lines
    simp only [runLoopF]
    cases hr : readRequestM unm lines with
    | error e => cases e <;> rfl
    | ok p =>
      obtain ⟨req, rest⟩ := p
      dsimp only
      by_cases hc : req.command = cmdClose
      · rw [if_pos hc]
        simp [handleRequest_id B st req]
      · rw [if_neg hc]
        simp only [List.map_cons]
        rw [handleRequest_id B st req, ih (handleRequest B st req).1 rest]

/-- Claim C2: for every request consumed from input (put, get, close, or
an unknown command), exactly one response is emitted, and the ID field of
that response equals the ID field of the request. In the linearized run
model: the emitted responses are the initial response followed by exactly
one response per consumed request, in order, with matching IDs. -/
theorem claim2_one_response_per_request {σ : Type} (unm : List Char → Option RequestM)
    (B : BackendM σ) (st : σ) (lines : List (List Char)) :
    (runM unm B st lines).sent.length = (runM unm B st lines).handled.length + 1 ∧
    (runM unm B st lines).sent.tail.map (fun r => r.id) =
      (runM unm B st lines).handled.map (fun q => q.id) := by
  have h := runLoopF_ids unm B (lines.length + 1) st lines
  constructor
  · have hlen : (runLoopF unm B (lines.length + 1) st lines).sent.length =
        (runLoopF unm B (lines.length + 1) st lines).handled.length := by
      have := congrArg List.length h
      simpa using this
    simp [runM, hlen]
  · simpa [runM] using h

/-- Claim C1 counterexample: the JSON serialization of the initial
response is not the claimed line: the ID field is tagged omitempty and
its value is 0, so "ID":0 is omitted from the output. -/
theorem claim1_counterexample :
    sendResponseBytes initialResponse ≠
      ("\x7b\"ID\":0,\"KnownCommands\":[\"put\",\"get\",\"close\"]\x7d").toList ++ ['\n'] := by
  decide

/-- Claim C1 as amended: before reading any request, the broker emits
exactly one initial response line, and its JSON serialization is exactly
the object with the single member KnownCommands (ID, being 0 and tagged
omitempty, is omitted), followed by a single newline. -/
theorem claim1_initial_response {σ : Type} (unm : List Char → Option RequestM)
    (B : BackendM σ) (st : σ) (lines : List (List Char)) :
    (runM unm B st lines).sent.head? = some initialResponse ∧
    sendResponseBytes initialResponse =
      ("\x7b\"KnownCommands\":[\"put\",\"get\",\"close\"]\x7d").toList ++ ['\n'] := by
  constructor
  · rfl
  · decide

theorem startsWith_head_ne (p c : Char) (P cs : List Char) (h : p ≠ c) :
    startsWith (p :: P) (c :: cs) = false := by
  simp [startsWith, h]

theorem scanMetaLine_nil (acc : MetaFields) : scanMetaLine acc [] = acc := rfl

theorem scanMetaLine_outputID (acc : MetaFields) (hex : List Char) (hne : hex ≠ [])
    (hns : ∀ c ∈ hex, goIsSpace c = false) :
    scanMetaLine acc (outputIDKey ++ hex) = { acc with outputIDHex := hex } := by
  have hkeyns : ∀ c ∈ outputIDKey, goIsSpace c = false := by decide
  have hts : trimSpace (outputIDKey ++ hex) = outputIDKey ++ hex := by
    refine trimSpace_eq_self _ ?_
    intro c hc
    rcases List.mem_append.1 hc with h | h
    · exact hkeyns c h
    · exact hns c h
  have hdrop : (outputIDKey ++ hex).drop 9 = hex := by
    have h9 : outputIDKey.length = 9 := rfl
    rw [← h9, List.drop_left]
  simp [scanMetaLine, hts, startsWith_append, hdrop, scanStr_all hex hne hns]

theorem scanMetaLine_outputID_empty (acc : MetaFields) :
    scanMetaLine acc outputIDKey = acc := rfl

theorem scanMetaLine_size (acc : MetaFields) (s : Int) :
    scanMetaLine acc (sizeKey ++ intToChars s) = { acc with size := s } := by
  have hkeyns : ∀ c ∈ sizeKey, goIsSpace c = false := by decide
  have hns : ∀ c ∈ sizeKey ++ intToChars s, goIsSpace c = false := by
    intro c hc
    rcases List.mem_append.1 hc with h | h
    · exact hkeyns c h
    · exact intToChars_not_space s c h
  have hts := trimSpace_eq_self _ hns
  have hsw1 : startsWith outputIDKey (sizeKey ++ intToChars s) = false :=
    startsWith_head_ne _ _ _ _ (by decide)
  have hdrop : (sizeKey ++ intToChars s).drop 5 = intToChars s := by
    have h5 : sizeKey.length = 5 := rfl
    rw [← h5, List.drop_left]
  simp [scanMetaLine, hts, hsw1, startsWith_append, hdrop, scanInt_intToChars]

theorem scanMetaLine_time (acc : MetaFields) (t : Int) :
    scanMetaLine acc (timeKey ++ intToChars t) = { acc with putTimeUnix := t } := by
  have hkeyns : ∀ c ∈ timeKey, goIsSpace c = false := by decide
  have hns : ∀ c ∈ timeKey ++ intToChars t, goIsSpace c = false := by
    intro c hc
    rcases List.mem_append.1 hc with h | h
    · exact hkeyns c h
    · exact intToChars_not_space t c h
  have hts := trimSpace_eq_self _ hns
  have hsw1 : startsWith outputIDKey (timeKey ++ intToChars t) = false :=
    startsWith_head_ne _ _ _ _ (by decide)
  have hsw2 : startsWith sizeKey (timeKey ++ intToChars t) = false :=
    startsWith_head_ne _ _ _ _ (by decide)
  have hdrop : (timeKey ++ intToChars t).drop 5 = intToChars t := by
    have h5 : timeKey.length = 5 := rfl
    rw [← h5, List.drop_left]
  simp [scanMetaLine, hts, hsw1, hsw2, startsWith_append, hdrop, scanInt_intToChars]

theorem nl_not_mem_hexline (oid : List Nat) (hb : ∀ b ∈ oid, b < 256) :
    '\n' ∉ outputIDKey ++ hexEncode oid := by
  intro hc
  rcases List.mem_append.1 hc with h | h
  · revert h
    decide
  · exact hexEncode_ne_nl oid hb h

theorem nl_not_mem_sizeline (s : Int) : '\n' ∉ sizeKey ++ intToChars s := by
  intro hc
  rcases List.mem_append.1 hc with h | h
  · revert h
    decide
  · exact intToChars_ne_nl s h

theorem nl_not_mem_timeline (t : Int) : '\n' ∉ timeKey ++ intToChars t := by
  intro hc
  rcases List.mem_append.1 hc with h | h
  · revert h
    decide
  · exact intToChars_ne_nl t h

theorem splitOnNl_metaContent (oid : List Nat) (hb : ∀ b ∈ oid, b < 256) (s t : Int) :
    splitOnNl (metaContent oid s t) =
      [outputIDKey ++ hexEncode oid, sizeKey ++ intToChars s, timeKey ++ intToChars t, []] := by
  have e1 : metaContent oid s t =
      (outputIDKey ++ hexEncode oid) ++ '\n' ::
        ((sizeKey ++ intToChars s) ++ '\n' :: ((timeKey ++ intToChars t) ++ '\n' :: [])) := by
    unfold metaContent
    simp
  rw [e1, splitOnNl_append _ _ (nl_not_mem_hexline oid hb),
    splitOnNl_append _ _ (nl_not_mem_sizeline s),
    splitOnNl_append _ _ (nl_not_mem_timeline t)]
  rfl

theorem scanMetaFields_metaContent (oid : List Nat) (hb : ∀ b ∈ oid, b < 256) (s t : Int) :
    scanMetaFields (metaContent oid s t) = ⟨hexEncode oid, s, t⟩ := by
  unfold scanMetaFields
  rw [splitOnNl_metaContent oid hb s t]
  simp only [List.foldl_cons, List.foldl_nil]
  by_cases hne : oid = []
  · subst hne
    rw [show hexEncode [] = [] from rfl, show (outputIDKey ++ [] : List Char) = outputIDKey
        from by simp, scanMetaLine_outputID_empty, scanMetaLine_size, scanMetaLine_time,
      scanMetaLine_nil]
  · have hhexne : hexEncode oid ≠ [] := by
      cases oid with
      | nil => exact absurd rfl hne
      | cons a as => simp [hexEncode]
    rw [scanMetaLine_outputID _ _ hhexne (hexEncode_not_space oid hb), scanMetaLine_size,
      scanMetaLine_time, scanMetaLine_nil]

theorem hexEncode_ne_nil (oid : List Nat) (hne : oid ≠ []) : hexEncode oid ≠ [] := by
  cases oid with
  | nil => exact absurd rfl hne
  | cons a as => simp [hexEncode]

theorem readMetadata_metaContent (fs : FSModel) (dir : List Char) (aid oid : List Nat)
    (hne : oid ≠ []) (hb : ∀ b ∈ oid, b < 256) (s t : Int)
    (hmeta : fs (metadataPath dir aid) = some (metaContent oid s t)) :
    readMetadata fs dir aid = .ok ⟨oid, s, t⟩ := by
  unfold readMetadata
  rw [hmeta]
  simp only [scanMetaFields_metaContent oid hb s t]
  rw [if_neg (hexEncode_ne_nil oid hne)]
  simp only [hexDecode_hexEncode oid hb]

/-- Claim C6: LocalCache.Check returns null when the body file is absent;
returns null (and logs a warning) when the body file is present but the
sidecar is absent, unparsable, or missing the outputID line; and
otherwise returns the parsed metadata. -/
theorem claim6_check_spec (fs : FSModel) (dir : List Char) (aid : List Nat) :
    (fs (actionIDToPath dir aid) = none → lcCheck fs dir aid = none) ∧
    (∀ body, fs (actionIDToPath dir aid) = some body →
      ((fs (metadataPath dir aid) = none →
        lcCheck fs dir aid = none ∧ lcCheckWarns fs dir aid = true) ∧
      (∀ data, fs (metadataPath dir aid) = some data →
        (scanMetaFields data).outputIDHex = [] →
        lcCheck fs dir aid = none ∧ lcCheckWarns fs dir aid = true) ∧
      (∀ e, readMetadata fs dir aid = .error e →
        lcCheck fs dir aid = none ∧ lcCheckWarns fs dir aid = true) ∧
      (∀ m, readMetadata fs dir aid = .ok m →
        lcCheck fs dir aid = some m ∧ lcCheckWarns fs dir aid = false))) := by
  constructor
  · intro habs
    simp [lcCheck, habs]
  · intro body hbody
    have herr : ∀ e, readMetadata fs dir aid = .error e →
        lcCheck fs dir aid = none ∧ lcCheckWarns fs dir aid = true := by
      intro e he
      simp [lcCheck, lcCheckWarns, hbody, he]
    refine ⟨?_, ?_, herr, ?_⟩
    · intro hmeta
      refine herr (("metadata file not found").toList) ?_
      simp [readMetadata, hmeta]
    · intro data hdata hfield
      refine herr (("metadata missing outputID field").toList) ?_
      simp [readMetadata, hdata, hfield]
    · intro m hm
      simp [lcCheck, lcCheckWarns, hbody, hm]

theorem claim6_witness :
    lcCheck (fun p => if p = metadataPath ['/', 'c'] [1] then some [] else none)
      ['/', 'c'] [1] = none :=
  (claim6_check_spec _ _ _).1 (by decide)

theorem scanMetaFields_only_outputID (oid : List Nat) (hne : oid ≠ [])
    (hb : ∀ b ∈ oid, b < 256) :
    scanMetaFields ((outputIDKey ++ hexEncode oid) ++ ['\n']) = ⟨hexEncode oid, 0, 0⟩ := by
  unfold scanMetaFields
  rw [show (((outputIDKey ++ hexEncode oid) ++ ['\n'] : List Char)) =
      (outputIDKey ++ hexEncode oid) ++ '\n' :: [] from rfl,
    splitOnNl_append _ _ (nl_not_mem_hexline oid hb)]
  simp only [List.foldl_cons, List.foldl_nil, splitOnNl]
  rw [scanMetaLine_outputID _ _ (hexEncode_ne_nil oid hne) (hexEncode_not_space oid hb),
    scanMetaLine_nil]

theorem scanMetaFields_outputID_size (oid : List Nat) (hne : oid ≠ [])
    (hb : ∀ b ∈ oid, b < 256) (s : Int) :
    scanMetaFields ((outputIDKey ++ hexEncode oid) ++ '\n' ::
        ((sizeKey ++ intToChars s) ++ ['\n'])) = ⟨hexEncode oid, s, 0⟩ := by
  unfold scanMetaFields
  rw [splitOnNl_append _ _ (nl_not_mem_hexline oid hb),
    show (((sizeKey ++ intToChars s) ++ ['\n'] : List Char)) =
      (sizeKey ++ intToChars s) ++ '\n' :: [] from rfl,
    splitOnNl_append _ _ (nl_not_mem_sizeline s)]
  simp only [List.foldl_cons, List.foldl_nil, splitOnNl]
  rw [scanMetaLine_outputID _ _ (hexEncode_ne_nil oid hne) (hexEncode_not_space oid hb),
    scanMetaLine_size, scanMetaLine_nil]

theorem scanMetaFields_outputID_time (oid : List Nat) (hne : oid ≠ [])
    (hb : ∀ b ∈ oid, b < 256) (t : Int) :
    scanMetaFields ((outputIDKey ++ hexEncode oid) ++ '\n' ::
        ((timeKey ++ intToChars t) ++ ['\n'])) = ⟨hexEncode oid, 0, t⟩ := by
  unfold scanMetaFields
  rw [splitOnNl_append _ _ (nl_not_mem_hexline oid hb),
    show (((timeKey ++ intToChars t) ++ ['\n'] : List Char)) =
      (timeKey ++ intToChars t) ++ '\n' :: [] from rfl,
    splitOnNl_append _ _ (nl_not_mem_timeline t)]
  simp only [List.foldl_cons, List.foldl_nil, splitOnNl]
  rw [scanMetaLine_outputID _ _ (hexEncode_ne_nil oid hne) (hexEncode_not_space oid hb),
    scanMetaLine_time, scanMetaLine_nil]

/-- Claim C10: when parsing a sidecar, only the outputID field is
required: a sidecar that parses and contains an outputID line but is
missing the size line or the time line (or both) is accepted, with the
missing size defaulting to 0 and the missing time defaulting to the Unix
epoch value 0. -/
theorem claim10_only_outputID_required (fs : FSModel) (dir : List Char) (aid oid : List Nat)
    (hne : oid ≠ []) (hb : ∀ b ∈ oid, b < 256) (s t : Int) :
    (fs (metadataPath dir aid) = some ((outputIDKey ++ hexEncode oid) ++ ['\n']) →
      readMetadata fs dir aid = .ok ⟨oid, 0, 0⟩) ∧
    (fs (metadataPath dir aid) = some ((outputIDKey ++ hexEncode oid) ++ '\n' ::
        ((sizeKey ++ intToChars s) ++ ['\n'])) →
      readMetadata fs dir aid = .ok ⟨oid, s, 0⟩) ∧
    (fs (metadataPath dir aid) = some ((outputIDKey ++ hexEncode oid) ++ '\n' ::
        ((timeKey ++ intToChars t) ++ ['\n'])) →
      readMetadata fs dir aid = .ok ⟨oid, 0, t⟩) := by
  refine ⟨?_, ?_, ?_⟩ <;> intro hmeta <;> unfold readMetadata <;> rw [hmeta]
  · simp only [scanMetaFields_only_outputID oid hne hb]
    rw [if_neg (hexEncode_ne_nil oid hne)]
    simp only [hexDecode_hexEncode oid hb]
  · simp only [scanMetaFields_outputID_size oid hne hb s]
    rw [if_neg (hexEncode_ne_nil oid hne)]
    simp only [hexDecode_hexEncode oid hb]
  · simp only [scanMetaFields_outputID_time oid hne hb t]
    rw [if_neg (hexEncode_ne_nil oid hne)]
    simp only [hexDecode_hexEncode oid hb]

theorem claim10_witness :
    readMetadata
      (fun p => if p = metadataPath ['/', 'c'] [2] then
        some ((outputIDKey ++ hexEncode [171]) ++ ['\n']) else none)
      ['/', 'c'] [2] = .ok ⟨[171], 0, 0⟩ :=
  (claim10_only_outputID_required _ ['/', 'c'] [2] [171] (by decide) (by decide) 0 0).1
    (by decide)

theorem bodyPath_ne_metaPath (dir : List Char) (aid : List Nat) :
    actionIDToPath dir aid ≠ metadataPath dir aid := by
  intro h
  have hl := congrArg List.length h
  simp [metadataPath] at hl

/-- Claim C7 counterexample: with a pre-existing sidecar for the same
ActionID, a WriteWithMetadata whose metadata write fails still returns
the disk path with no error, but the subsequent Check does NOT return
null: it returns the stale metadata of the earlier store. -/
theorem claim7_counterexample :
    (writeWithMetadata fs7 ['/', 'c'] [1] [104] ⟨[187], 2, 9⟩ true).2 =
      .ok (actionIDToPath ['/', 'c'] [1]) ∧
    lcCheck (writeWithMetadata fs7 ['/', 'c'] [1] [104] ⟨[187], 2, 9⟩ true).1
      ['/', 'c'] [1] ≠ none := by
  refine ⟨rfl, ?_⟩
  decide

/-- Claim C7 as amended: if the metadata write inside WriteWithMetadata
fails after the body write succeeded, WriteWithMetadata still returns the
disk path with no error (the failure is only logged); and provided no
sidecar for that ActionID already exists, a subsequent Check returns null
(the entry is treated as unreadable). -/
theorem claim7_meta_write_failure (fs : FSModel) (dir : List Char) (aid : List Nat)
    (body : List Nat) (meta : LocalCacheMetadata)
    (hstale : fs (metadataPath dir aid) = none) :
    (writeWithMetadata fs dir aid body meta true).2 = .ok (actionIDToPath dir aid) ∧
    lcCheck (writeWithMetadata fs dir aid body meta true).1 dir aid = none := by
  constructor
  · rfl
  · have hfs : (writeWithMetadata fs dir aid body meta true).1 =
        fsUpdate fs (actionIDToPath dir aid) (body.map Char.ofNat) := rfl
    have hmeta : (writeWithMetadata fs dir aid body meta true).1
        (metadataPath dir aid) = none := by
      rw [hfs]
      unfold fsUpdate
      rw [if_neg (Ne.symm (bodyPath_ne_metaPath dir aid)), hstale]
    have hbody : (writeWithMetadata fs dir aid body meta true).1
        (actionIDToPath dir aid) = some (body.map Char.ofNat) := by
      rw [hfs]
      unfold fsUpdate
      rw [if_pos rfl]
    simp [lcCheck, lcCheckWarns, hbody, readMetadata, hmeta]

theorem claim7_witness :
    (writeWithMetadata (fun _ => none) ['/', 'c'] [1] [104] ⟨[187], 2, 9⟩ true).2 =
      .ok (actionIDToPath ['/', 'c'] [1]) ∧
    lcCheck (writeWithMetadata (fun _ => none) ['/', 'c'] [1] [104] ⟨[187], 2, 9⟩ true).1
      ['/', 'c'] [1] = none :=
  claim7_meta_write_failure (fun _ => none) ['/', 'c'] [1] [104] ⟨[187], 2, 9⟩ rfl

/-- Claim C9: for a put request with BodySize equal to 0, no body line is
consumed from the input stream, and the store operation creates the body
file with length 0 together with its metadata, so a subsequent get
returns Size=0 (a hit) and the path of the empty file. -/
theorem claim9_zero_length_put (req : RequestM) (hcmd : req.command = cmdPut)
    (hsize : req.bodySize = 0) (lines : List (List Char)) (fs : FSModel)
    (baseDir : List Char) (aid oid : List Nat) (hb : ∀ b ∈ oid, b < 256) (now : Int) :
    readRequestBody req lines = .ok (req, lines) ∧
    (diskPut fs baseDir aid oid req.bodyBytes req.bodySize now).2 =
      .ok (actionIDToPath baseDir aid) ∧
    (diskPut fs baseDir aid oid req.bodyBytes req.bodySize now).1
      (actionIDToPath baseDir aid) = some [] ∧
    ∃ g, diskGet (diskPut fs baseDir aid oid req.bodyBytes req.bodySize now).1 baseDir aid =
        .ok g ∧ g.miss = false ∧ g.size = 0 ∧ g.diskPath = actionIDToPath baseDir aid := by
  have hnotread : ¬(req.command = cmdPut ∧ req.bodySize > 0) := by
    intro h
    rw [hsize] at h
    exact absurd h.2 (by decide)
  have hnotbody : ¬((0 : Int) > 0 ∧ (req.bodyBytes).isSome = true) := by
    intro h
    exact absurd h.1 (by decide)
  have hput : diskPut fs baseDir aid oid req.bodyBytes 0 now =
      (fsUpdate (fsUpdate fs (actionIDToPath baseDir aid) [])
        (metadataPath baseDir aid) (metaContent oid 0 now),
        .ok (actionIDToPath baseDir aid)) := by
    simp only [diskPut, if_neg hnotbody]
  have hfsbody : (diskPut fs baseDir aid oid req.bodyBytes 0 now).1
      (actionIDToPath baseDir aid) = some [] := by
    rw [hput]
    unfold fsUpdate
    dsimp only
    rw [if_neg (bodyPath_ne_metaPath baseDir aid), if_pos rfl]
  have hfsmeta : (diskPut fs baseDir aid oid req.bodyBytes 0 now).1
      (metadataPath baseDir aid) = some (metaContent oid 0 now) := by
    rw [hput]
    unfold fsUpdate
    dsimp only
    rw [if_pos rfl]
  refine ⟨by simp [readRequestBody, hnotread], ?_, ?_, ?_⟩
  · rw [hsize, hput]
  · rw [hsize]
    exact hfsbody
  · rw [hsize]
    refine ⟨⟨oid, actionIDToPath baseDir aid, 0, some now, false⟩, ?_, rfl, rfl, rfl⟩
    simp only [diskGet]
    rw [hfsbody, hfsmeta]
    simp only [scanMetaFields_metaContent oid hb 0 now, hexDecode_hexEncode oid hb]

theorem claim9_witness :
    readRequestBody { id := 3, command := cmdPut, bodySize := 0 } [] = .ok
      ({ id := 3, command := cmdPut, bodySize := 0 }, []) ∧
    (diskPut (fun _ => none) ['/', 'd'] [1] [171] none 0 7).2 =
      .ok (actionIDToPath ['/', 'd'] [1]) ∧
    (diskPut (fun _ => none) ['/', 'd'] [1] [171] none 0 7).1
      (actionIDToPath ['/', 'd'] [1]) = some [] ∧
    ∃ g, diskGet (diskPut (fun _ => none) ['/', 'd'] [1] [171] none 0 7).1 ['/', 'd'] [1] =
        .ok g ∧ g.miss = false ∧ g.size = 0 ∧ g.diskPath = actionIDToPath ['/', 'd'] [1] :=
  claim9_zero_length_put { id := 3, command := cmdPut, bodySize := 0 } rfl rfl []
    (fun _ => none) ['/', 'd'] [1] [171] (by decide) 7

/-- Claim C5: when FSLockGroup.Do cannot acquire the advisory lock within
the ~1 second timeout, it returns the error "failed to acquire lock:
timeout" without executing fn; and on every path (timeout, error, or
successful execution) it returns shared=false. -/
theorem claim5_fslock_do {V : Type} (outcome : AcquireOutcome)
    (fn : Unit → V × Option (List Char)) :
    (outcome = .timeout →
      (fsLockGroupDo outcome fn).err = some (("failed to acquire lock: timeout").toList) ∧
      (fsLockGroupDo outcome fn).fnCalls = 0) ∧
    (fsLockGroupDo outcome fn).shared = false := by
  constructor
  · intro h
    subst h
    exact ⟨rfl, rfl⟩
  · cases outcome <;> rfl

theorem claim5_witness :
    (fsLockGroupDo .timeout (fun _ => ((0 : Nat), none))).err =
      some (("failed to acquire lock: timeout").toList) ∧
    (fsLockGroupDo .timeout (fun _ => ((0 : Nat), none))).fnCalls = 0 :=
  (claim5_fslock_do .timeout (fun _ => ((0 : Nat), none))).1 rfl

theorem retryGo_attempts_ge (oracle : Nat → ResponseM × Bool) (isClose : Bool) :
    ∀ rem attempt acc, attempt + 1 ≤ (retryGo oracle isClose rem attempt acc).attempts := by
  intro rem
  induction rem with
  | zero => intro attempt acc; simp [retryGo]
  | succ rem ih =>
    intro attempt acc
    simp only [retryGo]
    by_cases hc : (!(oracle attempt).2 || isClose) = true
    · rw [if_pos hc]
    · rw [if_neg hc]
      have := ih (attempt + 1) (acc ++ [10 * 2 ^ attempt])
      omega

theorem retryGo_attempts_le (oracle : Nat → ResponseM × Bool) (isClose : Bool) :
    ∀ rem attempt acc, (retryGo oracle isClose rem attempt acc).attempts ≤ attempt + rem + 1 := by
  intro rem
  induction rem with
  | zero => intro attempt acc; simp [retryGo]
  | succ rem ih =>
    intro attempt acc
    simp only [retryGo]
    by_cases hc : (!(oracle attempt).2 || isClose) = true
    · rw [if_pos hc]
      dsimp only
      omega
    · rw [if_neg hc]
      have := ih (attempt + 1) (acc ++ [10 * 2 ^ attempt])
      omega

theorem range_shift_map (a n : Nat) :
    (List.range (n + 1)).map (fun j => 10 * 2 ^ (a + j)) =
      10 * 2 ^ a :: (List.range n).map (fun j => 10 * 2 ^ (a + 1 + j)) := by
  rw [List.range_succ_eq_map, List.map_cons, List.map_map]
  simp only [Nat.add_zero]
  congr 1
  refine List.map_congr_left ?_
  intro j hj
  simp only [Function.comp_apply]
  congr 1
  congr 1
  omega

theorem retryGo_delays (oracle : Nat → ResponseM × Bool) (isClose : Bool) :
    ∀ rem attempt acc,
      (retryGo oracle isClose rem attempt acc).delays = acc ++
        (List.range ((retryGo oracle isClose rem attempt acc).attempts - (attempt + 1))).map
          (fun j => 10 * 2 ^ (attempt + j)) := by
  intro rem
  induction rem with
  | zero =>
    intro attempt acc
    simp [retryGo]
  | succ rem ih =>
    intro attempt acc
    simp only [retryGo]
    by_cases hc : (!(oracle attempt).2 || isClose) = true
    · rw [if_pos hc]
      simp
    · rw [if_neg hc]
      have hge := retryGo_attempts_ge oracle isClose rem (attempt + 1) (acc ++ [10 * 2 ^ attempt])
      have heq := ih (attempt + 1) (acc ++ [10 * 2 ^ attempt])
      rw [heq]
      have hn : (retryGo oracle isClose rem (attempt + 1) (acc ++ [10 * 2 ^ attempt])).attempts
          - (attempt + 1) =
        ((retryGo oracle isClose rem (attempt + 1) (acc ++ [10 * 2 ^ attempt])).attempts
          - (attempt + 2)) + 1 := by omega
    
      rw [hn, range_shift_map]
      simp [List.append_assoc]

theorem retryGo_first_success (oracle : Nat → ResponseM × Bool) :
    ∀ rem attempt acc i, i ≤ rem →
      (∀ j, attempt ≤ j → j < attempt + i → (oracle j).2 = true) →
      (oracle (attempt + i)).2 = false →
      (retryGo oracle false rem attempt acc).attempts = attempt + i + 1 ∧
      (retryGo oracle false rem attempt acc).resp = (oracle (attempt + i)).1 := by
  intro rem
  induction rem with
  | zero =>
    intro attempt acc i hle hprev hsucc
    interval_cases i
    simp [retryGo]
  | succ rem ih =>
    intro attempt acc i hle hprev hsucc
    simp only [retryGo]
    cases i with
    | zero =>
      simp only [Nat.add_zero] at hsucc
      rw [if_pos (by simp [hsucc])]
      exact ⟨rfl, by simp [hsucc]⟩
    | succ i2 =>
      have hfail : (oracle attempt).2 = true := hprev attempt (le_refl attempt) (by omega)
      rw [if_neg (by simp [hfail])]
      have := ih (attempt + 1) (acc ++ [10 * 2 ^ attempt]) i2 (by omega)
        (fun j h1 h2 => hprev j (by omega) (by omega))
        (by rw [show attempt + 1 + i2 = attempt + (i2 + 1) from by omega] at *; exact hsucc)
      rw [show attempt + 1 + i2 = attempt + (i2 + 1) from by omega] at this
      exact this

/-- Claim C8: HandleRequestWithRetries invokes HandleRequest at most
maxRetries+1 times; it returns immediately after the first successful
attempt and never retries a close command; the delay before retry
attempt k (k >= 1) is 10 ms * 2^(k-1); and with maxRetries = 0 it behaves
identically to a single HandleRequest call. -/
theorem claim8_retry_wrapper (oracle : Nat → ResponseM × Bool) (isClose : Bool)
    (maxRetries : Nat) :
    (handleRequestWithRetries oracle isClose maxRetries).attempts ≤ maxRetries + 1 ∧
    (∀ i, i ≤ maxRetries → (∀ j, j < i → (oracle j).2 = true) → (oracle i).2 = false →
      isClose = false →
      (handleRequestWithRetries oracle isClose maxRetries).attempts = i + 1 ∧
      (handleRequestWithRetries oracle isClose maxRetries).resp = (oracle i).1) ∧
    (isClose = true →
      (handleRequestWithRetries oracle isClose maxRetries).attempts = 1 ∧
      (handleRequestWithRetries oracle isClose maxRetries).resp = (oracle 0).1 ∧
      (handleRequestWithRetries oracle isClose maxRetries).isErr = (oracle 0).2) ∧
    ((handleRequestWithRetries oracle isClose maxRetries).delays =
      (List.range ((handleRequestWithRetries oracle isClose maxRetries).attempts - 1)).map
        (fun k => 10 * 2 ^ k)) ∧
    (maxRetries = 0 →
      handleRequestWithRetries oracle isClose maxRetries =
        ⟨(oracle 0).1, (oracle 0).2, 1, []⟩) := by
  refine ⟨?_, ?_, ?_, ?_, ?_⟩
  · have := retryGo_attempts_le oracle isClose maxRetries 0 []
    unfold handleRequestWithRetries
    omega
  · intro i hle hprev hsucc hcl
    subst hcl
    have := retryGo_first_success oracle maxRetries 0 [] i hle
      (fun j h1 h2 => hprev j (by omega)) (by simpa using hsucc)
    simpa using this
  · intro hcl
    subst hcl
    cases maxRetries with
    | zero => exact ⟨rfl, rfl, rfl⟩
    | succ m =>
      have hcl : retryGo oracle true (m + 1) 0 [] = ⟨(oracle 0).1, (oracle 0).2, 1, []⟩ := by
        simp [retryGo]
      unfold handleRequestWithRetries
      rw [hcl]
      exact ⟨rfl, rfl, rfl⟩
  · have := retryGo_delays oracle isClose maxRetries 0 []
    unfold handleRequestWithRetries at *
    simpa using this
  · intro h
    subst h
    rfl

theorem claim8_witness :
    (handleRequestWithRetries
        (fun a => ({ id := 5 }, a = 0)) false 2).attempts = 2 ∧
    (handleRequestWithRetries
        (fun a => ({ id := 5 }, a = 0)) false 2).resp = { id := 5 } :=
  (claim8_retry_wrapper (fun a => ({ id := 5 }, a = 0)) false 2).2.1 1 (by omega)
    (by decide) (by decide) rfl
